import Mathlib

/-!
Shallow embedding of the LSR-GPT batch classification pipeline
(`impacts_common.py`, `gpt_common.py`, `gpt_classify.py`).

Machine integers are modelled by `Int`/`Nat` (Python integers are unbounded),
Python floats by exact rationals `ℚ` (every probability/score value appearing
in the verified claims is exactly representable), raised exceptions by
`Option`/`none`.
-/

/-- One entry of the batch plan dictionary produced by `define_batches`:
`"indices": (start, stop)` (inclusive) and the `"processed"` flag. -/
structure BatchEntry where
  start : Int
  stop : Int
  processed : Bool
deriving DecidableEq, Repr

/-- The batch plan: a Python dict from integer batch id to entry, modelled as
an association list in insertion order (Python dicts preserve it). -/
abbrev BatchPlan := List (Nat × BatchEntry)

/-- Embedding of `impacts_common.define_batches`.  `batch_size == 0` is the
single-batch sentinel stored under key `batch_size` (that is, `0`); otherwise
`num_reports // batch_size` full batches are emitted, plus a trailing batch
holding the remainder when it is nonzero. -/
def define_batches (num_reports : Nat) (batch_size : Nat) : BatchPlan :=
  if batch_size = 0 then
    [(batch_size, ⟨0, (num_reports : Int) - 1, false⟩)]
  else
    let full_batches := num_reports / batch_size
    let rem_batch := num_reports % batch_size
    ((List.range full_batches).map (fun batch =>
        (batch, ⟨(batch_size : Int) * batch,
                 (batch_size : Int) * (batch + 1) - 1, false⟩)))
    ++ (if rem_batch > 0 then
          [(full_batches, ⟨(batch_size : Int) * full_batches,
                           (batch_size : Int) * full_batches + rem_batch - 1,
                           false⟩)]
        else [])

/-! ### Python string primitives

Python `str.split`, `in`, `endswith` and `int()` are re-implemented over
`List Char` with structural (fuel-based) recursion so that every definition
evaluates inside the kernel.  `pySplitGo` is Python `str.split(sep)` for a
non-empty separator: leftmost, non-overlapping matches, keeping empty parts. -/

/-- Boolean prefix test on character lists. -/
def charsPrefixOf : List Char → List Char → Bool
  | [], _ => true
  | _ :: _, [] => false
  | a :: as, b :: bs => a = b && charsPrefixOf as bs

/-- Worker for `pySplit`; `fuel` is an upper bound on the number of characters
still to be scanned (it never runs out when started at the string length). -/
def pySplitGo (sep : List Char) : Nat → List Char → List Char → List (List Char)
  | _, acc, [] => [acc.reverse]
  | 0, acc, l => [acc.reverse ++ l]
  | fuel + 1, acc, c :: cs =>
    if charsPrefixOf sep (c :: cs) then
      acc.reverse :: pySplitGo sep fuel [] ((c :: cs).drop sep.length)
    else
      pySplitGo sep fuel (c :: acc) cs

/-- Python `s.split(sep)` for a non-empty separator. -/
def pySplit (sep : String) (s : String) : List String :=
  (pySplitGo sep.data s.data.length [] s.data).map String.mk

/-- Python `lst[-1]` on the result of a `split` (never empty). -/
def pyLast (l : List String) : String := l.getLastD ""

/-- Python `lst[0]` on the result of a `split` (never empty). -/
def pyFirst (l : List String) : String := l.headD ""

/-- Python `s.endswith(suffix)`. -/
def pyEndsWith (s ext : String) : Bool := charsPrefixOf ext.data.reverse s.data.reverse

/-- Python `sub in s` (substring containment) for non-empty `sub`. -/
def pyContains (s sub : String) : Bool := decide (2 ≤ (pySplit sub s).length)

/-- Python `int(s)` for a plain string of decimal digits; `none` models the
`ValueError` raised on anything else. -/
def pyToNat (s : String) : Option Nat :=
  if s.data ≠ [] ∧ s.data.all Char.isDigit then
    some (s.data.foldl (fun n c => n * 10 + (c.toNat - 48)) 0)
  else none

/-! ### CheckpointScanner (`impacts_common.match_batch_results`) -/

/-- Batch-id recovery from an artifact path, embedding
`json_file.split("/")[-1].split("_")[-1].split(".")[0]` followed by `int(...)`. -/
def extract_batch_id (json_file : String) : Option Nat :=
  pyToNat (pyFirst (pySplit "." (pyLast (pySplit "_" (pyLast (pySplit "/" json_file))))))

/-- Embedding of `batches[batch_id]["processed"] = True`: a Python dict lookup
of a missing key raises `KeyError`, modelled by `none`. -/
def dict_set_processed (batches : BatchPlan) (batch_id : Nat) : Option BatchPlan :=
  if batches.any (fun e => e.1 = batch_id) then
    some (batches.map (fun e =>
      if e.1 = batch_id then (e.1, ⟨e.2.start, e.2.stop, true⟩) else e))
  else
    none

/-- One iteration of the scanner loop body of `match_batch_results`. -/
def scan_step (batches : BatchPlan) (json_file : String) : Option BatchPlan :=
  (extract_batch_id json_file).bind (fun i => dict_set_processed batches i)

/-- Embedding of `impacts_common.get_files_in_dir`: the directory listing is an
explicit argument (the filesystem is external to the program). -/
def get_files_in_dir (dir_files : List String) (ext : String) : List String :=
  dir_files.filter (fun f => pyEndsWith f ext)

/-- The `result_files` list of `match_batch_results`: `.json` files whose name
contains the run identifier. -/
def artifact_files (file_uuid : String) (dir_files : List String) : List String :=
  (get_files_in_dir dir_files ".json").filter (fun x => pyContains x file_uuid)

/-- Embedding of `impacts_common.match_batch_results`.  With no matching file
the plan is returned unchanged (after a console warning); otherwise every
recovered batch id is assigned `processed = True`, a missing id raising
`KeyError` (`none`). -/
def match_batch_results (file_uuid : String) (dir_files : List String)
    (batches : BatchPlan) : Option BatchPlan :=
  let result_files := artifact_files file_uuid dir_files
  if result_files.isEmpty then some batches
  else result_files.foldlM scan_step batches

/-- The scanner marking loop over already-recovered integer batch ids (the
same loop as `match_batch_results` after filename parsing). -/
def mark_ids (batches : BatchPlan) (ids : List Nat) : Option BatchPlan :=
  ids.foldlM dict_set_processed batches

/-! ### ScoreFunction (`impacts_common.ffsi_score`) -/

/-- A probability dictionary holding exactly the five FFSI classes, the shape
consumed by the dict branch of `ffsi_score`. -/
structure FfsiProbs where
  minor : ℚ
  moderate : ℚ
  serious : ℚ
  severe : ℚ
  catastrophic : ℚ
deriving DecidableEq, Repr

/-- Embedding of `impacts_common.ffsi_score` (dict branch): probabilities are
percentages, weighted `1..5`; `normalize` divides the result by the number of
classes. -/
def ffsi_score (probs : FfsiProbs) (normalize : Bool) : ℚ :=
  let s := probs.minor / 100 * 1 + probs.moderate / 100 * 2 +
           probs.serious / 100 * 3 + probs.severe / 100 * 4 +
           probs.catastrophic / 100 * 5
  if normalize then s / 5 else s

/-- Embedding of `impacts_common.ffsi_score` (list branch); a list with fewer
than five elements raises `IndexError` (`none`). -/
def ffsi_score_list (probs : List ℚ) (normalize : Bool) : Option ℚ :=
  if h : 4 < probs.length then
    let s := probs.get ⟨0, by omega⟩ / 100 * 1 + probs.get ⟨1, by omega⟩ / 100 * 2 +
             probs.get ⟨2, by omega⟩ / 100 * 3 + probs.get ⟨3, by omega⟩ / 100 * 4 +
             probs.get ⟨4, by omega⟩ / 100 * 5
    some (if normalize then s / 5 else s)
  else none

/-! ### Per-item classification (`gpt_common.query_gpt` / `classify_lsr_remarks`)

The external ChatGPT completion is a collaborator: its response text for the
current item is passed in as `oracle`.  Transient API failures are handled one
level up, in the driver (`gpt_classify.main`), so at this level the call
always yields a response string. -/

/-- The fixed response `query_gpt` fabricates for an empty or blank remark
(source: the `else` branch of `gpt_common.query_gpt`). -/
def no_remark_response : String :=
  "\x7b\"MINOR\": 0,\n                 \"MODERATE\": 0,\n                 \"SERIOUS\": 0,\n                 \"SEVERE\": 0,\n                 \"CATASTROPHIC\": 0\n                 \x7dNO REMARK FOR THIS LSR!"

/-- Embedding of `gpt_common.query_gpt`: a non-empty, non-blank query is sent
to the API (response given by `oracle`); otherwise the fixed zero-probability
response is returned without any call. -/
def query_gpt (oracle : String) (query : String) : String :=
  if query = "" ∨ query = " " then no_remark_response else oracle

/-- Embedding of `result.split('\x7d')[-1].split("\n\n")[-1]`. -/
def response_extra (result : String) : String :=
  pyLast (pySplit "\n\n" (pyLast (pySplit "\x7d" result)))

/-- Embedding of `result.split('\x7b')[-1].split('\x7d')[0]`. -/
def response_classes (result : String) : String :=
  pyFirst (pySplit "\x7d" (pyLast (pySplit "\x7b" result)))

/-- The all-zero classes text substituted when the response holds no
recognizable classification (source lines 191-195 of `gpt_common.py`,
including the original indentation). -/
def zero_classes_text : String :=
  "\"MINOR\": 0,\n                               \"MODERATE\": 0,\n                               \"SERIOUS\": 0,\n                               \"SEVERE\": 0,\n                               \"CATASTROPHIC\": 0"

/-! ### A model of `json.loads` for flat objects

`json.loads` is applied in the pipeline only to `"\x7b" ++ classes ++ "\x7d"`;
the payloads of interest are flat objects with string keys and integer values.
The parser below accepts exactly those (whitespace-tolerant, no escape
sequences, no nesting) and returns `none` — modelling the raised
`json.JSONDecodeError` — on everything else. -/

/-- Whitespace characters accepted by the JSON grammar. -/
def isWsChar (c : Char) : Bool := c == ' ' || c == '\n' || c == '\t' || c == '\x0d'

/-- Drop leading JSON whitespace. -/
def skipWs : List Char → List Char
  | [] => []
  | c :: cs => if isWsChar c then skipWs cs else c :: cs

/-- Read the body of a double-quoted string (no escape support). -/
def parseStringBody : List Char → List Char → Option (String × List Char)
  | [], _ => none
  | c :: cs, acc =>
    if c = '"' then some (String.mk acc.reverse, cs)
    else if c = '\\' then none
    else parseStringBody cs (c :: acc)

/-- Parse a double-quoted JSON string. -/
def parseJsonString : List Char → Option (String × List Char)
  | c :: cs => if c = '"' then parseStringBody cs [] else none
  | [] => none

/-- Greedily read decimal digits. -/
def parseDigits (acc : List Char) : List Char → List Char × List Char
  | c :: cs => if c.isDigit then parseDigits (c :: acc) cs else (acc.reverse, c :: cs)
  | [] => (acc.reverse, [])

/-- Digits to a natural number. -/
def digitsToNat (l : List Char) : Nat :=
  l.foldl (fun n c => n * 10 + (c.toNat - 48)) 0

/-- Parse an optionally-signed JSON integer. -/
def parseJsonInt (l : List Char) : Option (Int × List Char) :=
  match l with
  | '-' :: rest =>
    match parseDigits [] rest with
    | (ds, rest2) => if ds = [] then none else some (-(digitsToNat ds : Int), rest2)
  | _ =>
    match parseDigits [] l with
    | (ds, rest2) => if ds = [] then none else some ((digitsToNat ds : Int), rest2)

/-- Parse one or more `"key": int` members separated by commas; `fuel` bounds
the recursion depth (one unit per member suffices). -/
def parseMembers (fuel : Nat) (l : List Char) : Option (List (String × Int) × List Char) :=
  match fuel with
  | 0 => none
  | fuel + 1 =>
    match parseJsonString (skipWs l) with
    | none => none
    | some (key, rest) =>
      match skipWs rest with
      | ':' :: rest2 =>
        match parseJsonInt (skipWs rest2) with
        | none => none
        | some (v, rest3) =>
          match skipWs rest3 with
          | ',' :: rest4 =>
            (match parseMembers fuel rest4 with
             | none => none
             | some (kvs, rest5) => some ((key, v) :: kvs, rest5))
          | rest4 => some ([(key, v)], rest4)
      | _ => none

/-- Model of `json.loads` restricted to flat `\x7b"key": int, ...\x7d`
objects; `none` models `json.JSONDecodeError`. -/
def json_loads (s : String) : Option (List (String × Int)) :=
  match skipWs s.data with
  | c :: rest =>
    if c = Char.ofNat 123 then
      match skipWs rest with
      | d :: rest2 =>
        if d = Char.ofNat 125 then
          if skipWs rest2 = [] then some [] else none
        else
          match parseMembers (s.data.length + 1) rest with
          | some (kvs, rest3) =>
            (match skipWs rest3 with
             | e :: rest4 =>
               if e = Char.ofNat 125 ∧ skipWs rest4 = [] then some kvs else none
             | [] => none)
          | none => none
      | [] => none
    else none
  | [] => none

/-- Python dict lookup on the parsed object (last duplicate wins, as in a dict
built by `json.loads`); `none` models `KeyError`. -/
def dict_lookup (d : List (String × Int)) (k : String) : Option Int :=
  (d.reverse.find? (fun kv => decide (kv.1 = k))).map Prod.snd

/-- Assemble the five class probabilities read by `ffsi_score` from the parsed
dictionary; a missing class key raises `KeyError` (`none`). -/
def dict_to_probs (d : List (String × Int)) : Option FfsiProbs :=
  match dict_lookup d "MINOR", dict_lookup d "MODERATE", dict_lookup d "SERIOUS",
        dict_lookup d "SEVERE", dict_lookup d "CATASTROPHIC" with
  | some a, some b, some c, some e, some f => some ⟨(a : ℚ), (b : ℚ), (c : ℚ), (e : ℚ), (f : ℚ)⟩
  | _, _, _, _, _ => none

/-- One per-item classification record: `[remark, probs, score, extra]` as
stored by `classify_lsr_remarks` under the item's batch-local index. -/
structure ClassRec where
  remark : String
  probs : FfsiProbs
  score : ℚ
  extra : String
deriving DecidableEq, Repr

/-- The per-item body of `gpt_common.classify_lsr_remarks`: query, extraction
of the classes object and the trailing extra text, zero-substitution when the
two are indistinguishable, JSON parse, scoring.  `none` models an uncaught
exception (`json.JSONDecodeError` or `KeyError`) escaping the loop body. -/
def classify_item (oracle : String) (remark : String) : Option ClassRec :=
  let result := query_gpt oracle remark
  let extra := response_extra result
  let classes0 := response_classes result
  let classes := if classes0 = extra then zero_classes_text else classes0
  let response_json := "\x7b" ++ classes ++ "\x7d"
  (json_loads response_json).bind (fun d =>
    (dict_to_probs d).map (fun p => ⟨remark, p, ffsi_score p false, extra⟩))

/-! ### Call/pause timing of `classify_lsr_remarks`

`classify_lsr_remarks` issues one API call per item and then, whenever
`index < total_lsrs - 1` (and no `limit` break fired), executes
`wait_timeout(wait_time)`.  The event trace below records exactly that
sequence for one invocation over `num_remarks` items. -/

/-- An API-visible event inside one `classify_lsr_remarks` invocation. -/
inductive ApiEvent where
  | call : Nat → ApiEvent
  | pause : ApiEvent
deriving DecidableEq, Repr

/-- The loop of `classify_lsr_remarks` from item `index` with `remaining`
items left; `total` is `total_lsrs` and `limit` the optional item cap
(`0` = no cap, as in the driver). -/
def classify_go (total limit : Nat) : Nat → Nat → List ApiEvent
  | _, 0 => []
  | index, remaining + 1 =>
    ApiEvent.call index ::
      (if limit ≠ 0 ∧ index = limit - 1 then []
       else (if index < total - 1 then [ApiEvent.pause] else []) ++
            classify_go total limit (index + 1) remaining)

/-- Full call/pause trace of one `classify_lsr_remarks` invocation. -/
def classify_trace (num_remarks limit : Nat) : List ApiEvent :=
  classify_go num_remarks limit 0 num_remarks

/-- A driver-level event: a classification call tagged with its batch id and
batch-local item index, or a rate-limit pause. -/
inductive RunEvent where
  | call : Nat → Nat → RunEvent
  | pause : RunEvent
deriving DecidableEq, Repr

/-- Trace of one batch of `size` items, as produced by the driver calling
`classify_lsr_remarks` with `limit = 0`. -/
def batch_events (batch_id : Nat) (size : Nat) : List RunEvent :=
  (classify_trace size 0).map (fun e =>
    match e with
    | ApiEvent.call i => RunEvent.call batch_id i
    | ApiEvent.pause => RunEvent.pause)

/-- Call/pause trace of a driver invocation over its pending batches
(`(batch_id, size)` in processing order), in the run where every call
succeeds: the driver simply invokes `classify_lsr_remarks` batch after batch
with nothing in between. -/
def run_trace (batches : List (Nat × Nat)) : List RunEvent :=
  batches.flatMap (fun b => batch_events b.1 b.2)

/-- Is this event a classification call? -/
def is_call : RunEvent → Bool
  | RunEvent.call _ _ => true
  | RunEvent.pause => false

/-- The pause discipline claimed by the spec: every call that is followed by
some later call of the run is immediately followed by a pause. -/
def pause_after_calls_check : List RunEvent → Bool
  | [] => true
  | RunEvent.pause :: rest => pause_after_calls_check rest
  | RunEvent.call _ _ :: rest =>
    if rest.any is_call then
      match rest with
      | RunEvent.pause :: _ => pause_after_calls_check rest
      | _ => false
    else pause_after_calls_check rest

/-! ### ClassificationDriver (`gpt_classify.main`, batch loop)

Per batch: skip if `processed`; otherwise attempt `classify_lsr_remarks`; on a
transient failure (`RateLimitError`, `ServiceUnavailableError`, `APIError`,
`OSError`) wait `10s` and retry the whole batch once; a failing retry
propagates and terminates the run.  On success the artifact is written and the
plan entry marked processed.  `ok b a` says whether attempt `a` (`0` first,
`1` retry) of batch `b` succeeds; `max_batches` is the `MAX_BATCHES` constant
(`0` in the source, meaning no ceiling). -/

/-- Outcome of a driver invocation: the final plan, the classification
attempts issued (batch id, attempt number), the artifacts written, the
cooldown waits executed, and the batch whose second failure aborted the run
(if any). -/
structure RunOut where
  plan : BatchPlan
  calls : List (Nat × Nat)
  artifacts : List Nat
  cooldowns : List Nat
  fatalBatch : Option Nat
deriving DecidableEq, Repr

/-- Mark a plan entry processed. -/
def mark_entry (e : BatchEntry) : BatchEntry := ⟨e.start, e.stop, true⟩

/-- The batch loop of `gpt_classify.main`. -/
def drive (ok : Nat → Nat → Bool) (max_batches : Nat) : BatchPlan → RunOut
  | [] => ⟨[], [], [], [], none⟩
  | (batch_id, e) :: rest =>
    if e.processed then
      if max_batches ≠ 0 ∧ batch_id = max_batches then
        ⟨(batch_id, e) :: rest, [], [], [], none⟩
      else
        let r := drive ok max_batches rest
        ⟨(batch_id, e) :: r.plan, r.calls, r.artifacts, r.cooldowns, r.fatalBatch⟩
    else if ok batch_id 0 then
      if max_batches ≠ 0 ∧ batch_id = max_batches then
        ⟨(batch_id, mark_entry e) :: rest, [(batch_id, 0)], [batch_id], [], none⟩
      else
        let r := drive ok max_batches rest
        ⟨(batch_id, mark_entry e) :: r.plan, (batch_id, 0) :: r.calls,
         batch_id :: r.artifacts, r.cooldowns, r.fatalBatch⟩
    else if ok batch_id 1 then
      if max_batches ≠ 0 ∧ batch_id = max_batches then
        ⟨(batch_id, mark_entry e) :: rest, [(batch_id, 0), (batch_id, 1)],
         [batch_id], [batch_id], none⟩
      else
        let r := drive ok max_batches rest
        ⟨(batch_id, mark_entry e) :: r.plan, (batch_id, 0) :: (batch_id, 1) :: r.calls,
         batch_id :: r.artifacts, batch_id :: r.cooldowns, r.fatalBatch⟩
    else
      ⟨(batch_id, e) :: rest, [(batch_id, 0), (batch_id, 1)], [], [batch_id],
       some batch_id⟩

/-- The calls a single pending batch contributes to the run. -/
def calls_for (ok : Nat → Nat → Bool) (batch_id : Nat) : List (Nat × Nat) :=
  if ok batch_id 0 then [(batch_id, 0)] else [(batch_id, 0), (batch_id, 1)]

/-! ### ResultConsolidator (`gpt_classify.main`, consolidation pass)

Each artifact's records are merged into a full-size output table: record
`local_index` of artifact `batch_id` lands at global row
`batch_id * BATCH_SIZE + local_index`, its five probabilities divided by 100;
rows no artifact covers stay `none` (the empty placeholder). -/

/-- One consolidated output row: the five unit-interval probability columns,
the `FFSI` score column and the `EXTRA` column. -/
structure OutRow where
  minor : ℚ
  moderate : ℚ
  serious : ℚ
  severe : ℚ
  catastrophic : ℚ
  ffsi : ℚ
  extra : String
deriving DecidableEq, Repr

/-- The row written for one record: probabilities normalized from percent. -/
def consolidate_row (r : ClassRec) : OutRow :=
  ⟨r.probs.minor / 100, r.probs.moderate / 100, r.probs.serious / 100,
   r.probs.severe / 100, r.probs.catastrophic / 100, r.score, r.extra⟩

/-- Write the records of one artifact into the table starting at global row
`start`, local index `i` onwards. -/
def place_go (start : Nat) : Nat → List ClassRec → List (Option OutRow) → List (Option OutRow)
  | _, [], t => t
  | i, r :: rs, t => place_go start (i + 1) rs (t.set (start + i) (some (consolidate_row r)))

/-- Merge one artifact (id recovered from its filename) into the table. -/
def place_batch (t : List (Option OutRow)) (start : Nat) (recs : List ClassRec) :
    List (Option OutRow) :=
  place_go start 0 recs t

/-- The consolidation pass over all discovered artifacts
(`(batch_id, records)` in discovery order) for `n` original items. -/
def consolidate (batch_size n : Nat) (arts : List (Nat × List ClassRec)) :
    List (Option OutRow) :=
  arts.foldl (fun t a => place_batch t (a.1 * batch_size) a.2) (List.replicate n none)

/-! ## Theorems -/

/-- Unfolding of `define_batches` for a positive batch size. -/
theorem define_batches_pos (n b : Nat) (hb : 0 < b) :
    define_batches n b =
      ((List.range (n / b)).map (fun batch =>
        (batch, ⟨(b : Int) * batch, (b : Int) * (batch + 1) - 1, false⟩)))
      ++ (if n % b > 0 then
            [(n / b, ⟨(b : Int) * ((n / b : Nat) : Int),
                      (b : Int) * ((n / b : Nat) : Int) + ((n % b : Nat) : Int) - 1,
                      false⟩)]
          else []) := by
  unfold define_batches
  rw [if_neg (Nat.pos_iff_ne_zero.mp hb)]

/-- C3: for every `item_count ≥ 0` and `batch_size > 0`, `define_batches`
returns `item_count / batch_size` full batches plus one trailing partial batch
exactly when `item_count % batch_size ≠ 0`; batch ids are contiguous from `0`
in increasing order; the inclusive index ranges are pairwise disjoint and
increasing, cover every index of `[0, item_count)`, stay inside the bounds,
and their lengths sum to `item_count`; every batch starts unprocessed. -/
theorem claim_C3_batch_partition (n b : Nat) (hb : 0 < b) :
    (define_batches n b).length = n / b + (if n % b = 0 then 0 else 1)
    ∧ (define_batches n b).map Prod.fst = List.range (define_batches n b).length
    ∧ (define_batches n b).Pairwise (fun e1 e2 => e1.2.stop < e2.2.start)
    ∧ (∀ j : Nat, j < n → ∃ e ∈ define_batches n b,
        e.2.start ≤ (j : Int) ∧ (j : Int) ≤ e.2.stop)
    ∧ ((define_batches n b).map (fun e => e.2.stop - e.2.start + 1)).sum = (n : Int)
    ∧ (∀ e ∈ define_batches n b, 0 ≤ e.2.start ∧ e.2.stop < (n : Int))
    ∧ (∀ e ∈ define_batches n b, e.2.processed = false) := by
  have hfr : b * (n / b) + n % b = n := Nat.div_add_mod n b
  have hrb : n % b < b := Nat.mod_lt n hb
  rw [define_batches_pos n b hb]
  set f := n / b with hf
  set r := n % b with hrdef
  have hlen : (((List.range f).map (fun batch =>
      ((batch : Nat), (⟨(b : Int) * batch, (b : Int) * (batch + 1) - 1, false⟩ : BatchEntry))))
      ++ (if r > 0 then
            [(f, (⟨(b : Int) * (f : Nat), (b : Int) * (f : Nat) + ((r : Nat) : Int) - 1,
                  false⟩ : BatchEntry))]
          else [])).length = f + (if r = 0 then 0 else 1) := by
    by_cases h0 : r = 0
    · simp [h0, List.length_append]
    · rw [if_pos (Nat.pos_of_ne_zero h0), if_neg h0]
      simp [List.length_append]
  refine ⟨hlen, ?_, ?_, ?_, ?_, ?_, ?_⟩
  · -- batch ids are 0, 1, 2, ...
    rw [hlen, List.map_append, List.map_map]
    by_cases h0 : r = 0
    · simp [h0, Function.comp_def]
    · have : f + 1 = f + (if r = 0 then 0 else 1) := by simp [h0]
      rw [← this, List.range_succ, if_pos (Nat.pos_of_ne_zero h0)]
      simp [Function.comp_def]
  · -- pairwise increasing, disjoint ranges
    rw [List.pairwise_append]
    refine ⟨?_, ?_, ?_⟩
    · rw [List.pairwise_map]
      refine (List.pairwise_lt_range f).imp ?_
      intro i j hij
      simp only
      have h1 : ((i : Int) + 1) ≤ (j : Int) := by exact_mod_cast hij
      have h2 : (b : Int) * ((i : Int) + 1) ≤ (b : Int) * (j : Int) :=
        mul_le_mul_of_nonneg_left h1 (by positivity)
      linarith
    · by_cases h0 : r > 0 <;> simp [h0]
    · intro x hx y hy
      obtain ⟨i, hi, rfl⟩ := List.mem_map.mp hx
      have hif : i < f := List.mem_range.mp hi
      by_cases h0 : r > 0
      · rw [if_pos h0] at hy
        simp only [List.mem_singleton] at hy
        subst hy
        simp only
        have h1 : ((i : Int) + 1) ≤ (f : Int) := by exact_mod_cast hif
        have h2 : (b : Int) * ((i : Int) + 1) ≤ (b : Int) * (f : Int) :=
          mul_le_mul_of_nonneg_left h1 (by positivity)
        linarith
      · rw [if_neg h0] at hy
        simp at hy
  · -- coverage of [0, n)
    intro j hj
    have hjd : b * (j / b) + j % b = j := Nat.div_add_mod j b
    have hjm : j % b < b := Nat.mod_lt j hb
    by_cases hq : j / b < f
    · refine ⟨(j / b, ⟨(b : Int) * (j / b : Nat), (b : Int) * ((j / b : Nat) + 1) - 1,
        false⟩), ?_, ?_, ?_⟩
      · exact List.mem_append_left _ (List.mem_map.mpr ⟨j / b, List.mem_range.mpr hq, rfl⟩)
      · simp only
        have : ((b * (j / b) : Nat) : Int) ≤ (j : Nat) := by exact_mod_cast Nat.le.intro hjd
        push_cast at this ⊢
        linarith
      · simp only
        have h1 : (j : Int) = (b : Int) * ((j / b : Nat) : Int) + ((j % b : Nat) : Int) := by
          exact_mod_cast (hjd).symm
        have h2 : ((j % b : Nat) : Int) < (b : Int) := by exact_mod_cast hjm
        push_cast at h1 h2 ⊢
        linarith
    · -- j lies in the trailing partial batch
      push_neg at hq
      have hbf : b * f ≤ b * (j / b) := Nat.mul_le_mul_left b hq
      have hrpos : r > 0 := by omega
      refine ⟨(f, ⟨(b : Int) * (f : Nat), (b : Int) * (f : Nat) + ((r : Nat) : Int) - 1,
        false⟩), ?_, ?_, ?_⟩
      · refine List.mem_append_right _ ?_
        rw [if_pos hrpos]
        exact List.mem_singleton.mpr rfl
      · simp only
        have h1 : ((b * f : Nat) : Int) ≤ (j : Int) := by
          exact_mod_cast le_trans hbf (Nat.le.intro hjd)
        push_cast at h1 ⊢
        linarith
      · simp only
        have h1 : (j : Int) < ((b * f + r : Nat) : Int) := by exact_mod_cast hfr ▸ hj
        push_cast at h1 ⊢
        linarith
  · -- lengths sum to n
    rw [List.map_append, List.sum_append, List.map_map]
    have hA : ((List.range f).map ((fun e : Nat × BatchEntry => e.2.stop - e.2.start + 1) ∘
        (fun batch => (batch, ⟨(b : Int) * batch, (b : Int) * (batch + 1) - 1, false⟩)))) =
        List.replicate f (b : Int) := by
      have : ((fun e : Nat × BatchEntry => e.2.stop - e.2.start + 1) ∘
          (fun batch : Nat => ((batch : Nat),
            (⟨(b : Int) * batch, (b : Int) * (batch + 1) - 1, false⟩ : BatchEntry)))) =
          fun _ : Nat => (b : Int) := by
        funext i
        simp only [Function.comp_apply]
        ring
      rw [this]
      simp [List.map_const']
    rw [hA, List.sum_replicate, nsmul_eq_mul]
    by_cases h0 : r = 0
    · rw [if_neg (by omega : ¬ r > 0)]
      simp only [List.map_nil, List.sum_nil, add_zero]
      have : ((b * f : Nat) : Int) = (n : Int) := by exact_mod_cast (by omega : b * f = n)
      push_cast at this ⊢
      linarith
    · rw [if_pos (by omega : r > 0)]
      simp only [List.map_cons, List.map_nil, List.sum_cons, List.sum_nil, add_zero]
      have : ((b * f + r : Nat) : Int) = (n : Int) := by exact_mod_cast hfr
      push_cast at this ⊢
      linarith
  · -- every range lies inside [0, n)
    intro e he
    rcases List.mem_append.mp he with h | h
    · obtain ⟨i, hi, rfl⟩ := List.mem_map.mp h
      have hif : i < f := List.mem_range.mp hi
      constructor
      · simp only
        positivity
      · simp only
        have h1 : i + 1 ≤ f := hif
        have h2 : (b : Int) * ((i : Int) + 1) ≤ (b : Int) * (f : Int) :=
          mul_le_mul_of_nonneg_left (by exact_mod_cast h1) (by positivity)
        have h3 : ((b * f : Nat) : Int) ≤ (n : Int) := by
          exact_mod_cast (by omega : b * f ≤ n)
        push_cast at h2 h3 ⊢
        linarith [hb]
    · by_cases h0 : r > 0
      · rw [if_pos h0] at h
        simp only [List.mem_singleton] at h
        subst h
        constructor
        · simp only
          positivity
        · simp only
          have h1 : ((b * f + r : Nat) : Int) = (n : Int) := by exact_mod_cast hfr
          push_cast at h1 ⊢
          linarith
      · rw [if_neg h0] at h
        simp at h
  · -- every batch starts unprocessed
    intro e he
    rcases List.mem_append.mp he with h | h
    · obtain ⟨i, _, rfl⟩ := List.mem_map.mp h
      rfl
    · by_cases h0 : r > 0
      · rw [if_pos h0] at h
        simp only [List.mem_singleton] at h
        subst h
        rfl
      · rw [if_neg h0] at h
        simp at h

/-- C3 witness: the batch-partition theorem instantiated at
`item_count = 25`, `batch_size = 10`. -/
theorem claim_C3_witness :
    (0 < 10)
    ∧ (define_batches 25 10).length = 25 / 10 + (if 25 % 10 = 0 then 0 else 1) :=
  ⟨by decide, (claim_C3_batch_partition 25 10 (by decide)).1⟩

/-- C9 counterexample: `define_batches(0, 0)` is not an empty plan — the
`batch_size == 0` sentinel branch unconditionally emits one batch with the
degenerate index range `(0, -1)`, even for `item_count = 0`. -/
theorem claim_C9_counterexample :
    define_batches 0 0 = [(0, ⟨0, -1, false⟩)] ∧ define_batches 0 0 ≠ [] := by
  constructor
  · decide
  · decide

/-- C9 amended: `define_batches(0, batch_size)` is the empty plan for every
`batch_size > 0`; under the `batch_size == 0` sentinel it is instead the
single sentinel batch with the degenerate inclusive range `(0, -1)` and
`processed = false`.  (`define_batches` is a total function, so it has no
error conditions for any `item_count ≥ 0`.) -/
theorem claim_C9_amended :
    (∀ b : Nat, 0 < b → define_batches 0 b = [])
    ∧ define_batches 0 0 = [(0, ⟨0, -1, false⟩)] := by
  constructor
  · intro b hb
    rw [define_batches_pos 0 b hb]
    simp [Nat.zero_div, Nat.zero_mod]
  · decide

/-- C9 witness: the amended statement applied at `batch_size = 3`. -/
theorem claim_C9_witness : 0 < 3 ∧ define_batches 0 3 = [] :=
  ⟨by decide, claim_C9_amended.1 3 (by decide)⟩

/-- Marking one batch id found in the plan rewrites the plan entrywise. -/
theorem dict_set_processed_of_mem (batches : BatchPlan) (i : Nat)
    (h : batches.any (fun e => e.1 = i) = true) :
    dict_set_processed batches i =
      some (batches.map (fun e =>
        if e.1 = i then (e.1, ⟨e.2.start, e.2.stop, true⟩) else e)) := by
  unfold dict_set_processed
  rw [if_pos h]

/-- Marking a batch id missing from the plan raises `KeyError`. -/
theorem dict_set_processed_of_not_mem (batches : BatchPlan) (i : Nat)
    (h : batches.any (fun e => e.1 = i) = false) :
    dict_set_processed batches i = none := by
  unfold dict_set_processed
  rw [if_neg (by rw [h]; exact Bool.false_ne_true)]

/-- The entrywise marking map keeps every key, hence key membership tests. -/
theorem any_key_map_mark (batches : BatchPlan) (i k : Nat) :
    ((batches.map (fun e =>
        if e.1 = i then (e.1, (⟨e.2.start, e.2.stop, true⟩ : BatchEntry)) else e)).any
      (fun e => e.1 = k)) = batches.any (fun e => e.1 = k) := by
  induction batches with
  | nil => rfl
  | cons e t ih =>
    simp only [List.map_cons, List.any_cons, ih]
    by_cases h : e.1 = i <;> simp [h]

/-- Success path of the scanner marking loop: when every recovered id is a key
of the plan, the loop marks exactly the recovered ids. -/
theorem mark_ids_eq_map (ids : List Nat) (batches : BatchPlan)
    (h : ∀ i ∈ ids, batches.any (fun e => e.1 = i) = true) :
    mark_ids batches ids =
      some (batches.map (fun e =>
        if e.1 ∈ ids then (e.1, ⟨e.2.start, e.2.stop, true⟩) else e)) := by
  induction ids generalizing batches with
  | nil =>
    simp [mark_ids]
  | cons i ids ih =>
    have hi : batches.any (fun e => e.1 = i) = true := h i (List.mem_cons_self i ids)
    have step : mark_ids batches (i :: ids) =
        mark_ids (batches.map (fun e =>
          if e.1 = i then (e.1, ⟨e.2.start, e.2.stop, true⟩) else e)) ids := by
      unfold mark_ids
      rw [List.foldlM_cons, dict_set_processed_of_mem batches i hi]
      rfl
    rw [step, ih _ (fun j hj => by rw [any_key_map_mark]; exact h j (List.mem_cons_of_mem i hj))]
    congr 1
    rw [List.map_map]
    apply List.map_congr_left
    intro e _
    by_cases hei : e.1 = i
    · simp only [Function.comp_apply, if_pos hei]
      have : e.1 ∈ i :: ids := by rw [hei]; exact List.mem_cons_self i ids
      by_cases hin : e.1 ∈ ids <;> simp [hei, this, hin]
    · simp only [Function.comp_apply, if_neg hei]
      by_cases hin : e.1 ∈ ids
      · have : e.1 ∈ i :: ids := List.mem_cons_of_mem i hin
        simp [hin, this]
      · have : ¬ e.1 ∈ i :: ids := by
          rw [List.mem_cons]
          push_neg
          exact ⟨hei, hin⟩
        simp [hin, this]

/-- Failure path of the scanner marking loop: any recovered id that is not a
key of the plan makes the loop raise `KeyError`. -/
theorem mark_ids_eq_none (ids : List Nat) (batches : BatchPlan)
    (h : ∃ i ∈ ids, batches.any (fun e => e.1 = i) = false) :
    mark_ids batches ids = none := by
  induction ids generalizing batches with
  | nil =>
    obtain ⟨i, hi, _⟩ := h
    exact absurd hi (List.not_mem_nil i)
  | cons i ids ih =>
    by_cases hi : batches.any (fun e => e.1 = i) = true
    · have step : mark_ids batches (i :: ids) =
          mark_ids (batches.map (fun e =>
            if e.1 = i then (e.1, ⟨e.2.start, e.2.stop, true⟩) else e)) ids := by
        unfold mark_ids
        rw [List.foldlM_cons, dict_set_processed_of_mem batches i hi]
        rfl
      rw [step]
      apply ih
      obtain ⟨j, hj, hjf⟩ := h
      rcases List.mem_cons.mp hj with rfl | hj'
      · rw [hi] at hjf
        simp at hjf
      · exact ⟨j, hj', by rw [any_key_map_mark]; exact hjf⟩
    · have hif : batches.any (fun e => e.1 = i) = false := by
        revert hi
        cases batches.any (fun e => e.1 = i) <;> simp
      unfold mark_ids
      rw [List.foldlM_cons, dict_set_processed_of_not_mem batches i hif]
      rfl

/-- Filename parsing turns the scanner loop over files into the loop over the
recovered integer batch ids. -/
theorem foldlM_scan_eq_mark_ids (files : List String) (ids : List Nat)
    (batches : BatchPlan)
    (hparse : files.map extract_batch_id = ids.map some) :
    files.foldlM scan_step batches = mark_ids batches ids := by
  induction files generalizing ids batches with
  | nil =>
    cases ids with
    | nil => rfl
    | cons i ids => simp at hparse
  | cons f fs ih =>
    cases ids with
    | nil => simp at hparse
    | cons i ids =>
      simp only [List.map_cons, List.cons.injEq] at hparse
      rw [List.foldlM_cons]
      unfold mark_ids
      rw [List.foldlM_cons]
      have : scan_step batches f = dict_set_processed batches i := by
        unfold scan_step
        rw [hparse.1]
        rfl
      rw [this]
      cases hd : dict_set_processed batches i with
      | none => rfl
      | some b1 =>
        simpa using ih ids b1 hparse.2

/-- C4 counterexample: a stale artifact whose recovered batch id (`7`) is not
in the 3-batch plan is not silently ignored — `match_batch_results` raises
`KeyError` (modelled by `none`) instead of returning normally. -/
theorem claim_C4_counterexample :
    match_batch_results "ab" ["./results/ab_7.json"] (define_batches 25 10) = none := by
  decide

/-- C4 amended: for every batch plan and artifact filename set matching the
run identifier, `match_batch_results` sets `processed = true` for each
recovered batch id present in the plan; but a recovered batch id absent from
the plan is not silently ignored — the scan raises `KeyError` instead of
returning normally. -/
theorem claim_C4_amended (file_uuid : String) (dir_files : List String)
    (batches : BatchPlan) (ids : List Nat)
    (hparse : (artifact_files file_uuid dir_files).map extract_batch_id = ids.map some) :
    ((∀ i ∈ ids, batches.any (fun e => e.1 = i) = true) →
      match_batch_results file_uuid dir_files batches =
        some (batches.map (fun e =>
          if e.1 ∈ ids then (e.1, ⟨e.2.start, e.2.stop, true⟩) else e)))
    ∧ ((∃ i ∈ ids, batches.any (fun e => e.1 = i) = false) →
      match_batch_results file_uuid dir_files batches = none) := by
  unfold match_batch_results
  by_cases hemp : (artifact_files file_uuid dir_files).isEmpty
  · have hnil : artifact_files file_uuid dir_files = [] := List.isEmpty_iff.mp hemp
    rw [hnil] at hparse
    have hids : ids = [] := by
      cases ids with
      | nil => rfl
      | cons i ids => simp at hparse
    subst hids
    simp [hemp]
  · simp only [hemp, Bool.false_eq_true, if_false]
    rw [foldlM_scan_eq_mark_ids _ ids _ hparse]
    exact ⟨fun h => mark_ids_eq_map ids batches h, fun h => mark_ids_eq_none ids batches h⟩

/-- C4 witness: one on-disk artifact for batch `1` of the 3-batch plan of 25
items at batch size 10 marks exactly batch `1` processed. -/
theorem claim_C4_witness :
    match_batch_results "ab" ["./results/ab_1.json"] (define_batches 25 10) =
      some ((define_batches 25 10).map (fun e =>
        if e.1 ∈ [1] then (e.1, ⟨e.2.start, e.2.stop, true⟩) else e)) :=
  (claim_C4_amended "ab" ["./results/ab_1.json"] (define_batches 25 10) [1]
    (by decide)).1 (by decide)

/-- Unfolding of the `Option`-valued fold for an empty file list. -/
theorem option_foldlM_nil {α β : Type} (f : β → α → Option β) (b : β) :
    ([] : List α).foldlM f b = some b := rfl

/-- Unfolding of the `Option`-valued fold for a nonempty file list. -/
theorem option_foldlM_cons {α β : Type} (f : β → α → Option β) (b : β) (x : α)
    (l : List α) :
    (x :: l).foldlM f b = (f b x).bind (fun b1 => l.foldlM f b1) := rfl

/-- The scanner loop never clears a `processed` flag. -/
theorem scan_foldlM_mono (files : List String) (b b' : BatchPlan)
    (h : files.foldlM scan_step b = some b') :
    ∀ (k : Nat) (e e' : Nat × BatchEntry), b[k]? = some e → b'[k]? = some e' →
      e.2.processed = true → e'.2.processed = true := by
  induction files generalizing b with
  | nil =>
    intro k e e' he he' hp
    rw [option_foldlM_nil, Option.some.injEq] at h
    subst h
    rw [he] at he'
    cases he'
    exact hp
  | cons f fs ih =>
    rw [option_foldlM_cons] at h
    cases hs : scan_step b f with
    | none =>
      rw [hs] at h
      cases h
    | some b1 =>
      rw [hs] at h
      have h2 : fs.foldlM scan_step b1 = some b' := h
      intro k e e' he he' hp
      unfold scan_step at hs
      cases hx : extract_batch_id f with
      | none =>
        rw [hx] at hs
        cases hs
      | some i =>
        rw [hx] at hs
        have hs2 : dict_set_processed b i = some b1 := hs
        unfold dict_set_processed at hs2
        by_cases hmem : b.any (fun q => q.1 = i) = true
        · rw [if_pos hmem, Option.some.injEq] at hs2
          subst hs2
          have hb1 : (b.map (fun q =>
              if q.1 = i then (q.1, (⟨q.2.start, q.2.stop, true⟩ : BatchEntry)) else q))[k]? =
              some (if e.1 = i then (e.1, (⟨e.2.start, e.2.stop, true⟩ : BatchEntry)) else e) := by
            rw [List.getElem?_map, he]
            rfl
          refine ih _ h2 k _ e' hb1 he' ?_
          by_cases hei : e.1 = i <;> simp [hei, hp]
        · rw [if_neg hmem] at hs2
          cases hs2

/-- One step of the driver loop, with the recursive call left folded. -/
theorem drive_cons (ok : Nat → Nat → Bool) (mb : Nat) (bid : Nat) (e0 : BatchEntry)
    (rest : BatchPlan) :
    drive ok mb ((bid, e0) :: rest) =
      (if e0.processed then
        if mb ≠ 0 ∧ bid = mb then ⟨(bid, e0) :: rest, [], [], [], none⟩
        else ⟨(bid, e0) :: (drive ok mb rest).plan, (drive ok mb rest).calls,
              (drive ok mb rest).artifacts, (drive ok mb rest).cooldowns,
              (drive ok mb rest).fatalBatch⟩
      else if ok bid 0 then
        if mb ≠ 0 ∧ bid = mb then
          ⟨(bid, mark_entry e0) :: rest, [(bid, 0)], [bid], [], none⟩
        else ⟨(bid, mark_entry e0) :: (drive ok mb rest).plan,
              (bid, 0) :: (drive ok mb rest).calls, bid :: (drive ok mb rest).artifacts,
              (drive ok mb rest).cooldowns, (drive ok mb rest).fatalBatch⟩
      else if ok bid 1 then
        if mb ≠ 0 ∧ bid = mb then
          ⟨(bid, mark_entry e0) :: rest, [(bid, 0), (bid, 1)], [bid], [bid], none⟩
        else ⟨(bid, mark_entry e0) :: (drive ok mb rest).plan,
              (bid, 0) :: (bid, 1) :: (drive ok mb rest).calls,
              bid :: (drive ok mb rest).artifacts, bid :: (drive ok mb rest).cooldowns,
              (drive ok mb rest).fatalBatch⟩
      else
        ⟨(bid, e0) :: rest, [(bid, 0), (bid, 1)], [], [bid], some bid⟩) := rfl

/-- Every classification attempt of a driver run belongs to a batch whose
`processed` flag was false at the start of the run. -/
theorem drive_calls_sub (ok : Nat → Nat → Bool) (mb : Nat) (plan : BatchPlan) :
    ∀ c ∈ (drive ok mb plan).calls, ∃ p ∈ plan, p.1 = c.1 ∧ p.2.processed = false := by
  induction plan with
  | nil =>
    intro c hc
    simp [drive] at hc
  | cons p rest ih =>
    obtain ⟨bid, e0⟩ := p
    intro c hc
    rw [drive_cons] at hc
    by_cases h1 : e0.processed
    · rw [if_pos h1] at hc
      by_cases h2 : mb ≠ 0 ∧ bid = mb
      · rw [if_pos h2] at hc
        simp at hc
      · rw [if_neg h2] at hc
        obtain ⟨q, hq, hqc⟩ := ih c hc
        exact ⟨q, List.mem_cons_of_mem _ hq, hqc⟩
    · rw [if_neg h1] at hc
      have he0 : e0.processed = false := by
        revert h1
        cases e0.processed <;> simp
      by_cases hk0 : ok bid 0 = true
      · rw [if_pos hk0] at hc
        by_cases h2 : mb ≠ 0 ∧ bid = mb
        · rw [if_pos h2] at hc
          simp only [List.mem_singleton] at hc
          exact ⟨(bid, e0), List.mem_cons_self _ _, by rw [hc], he0⟩
        · rw [if_neg h2] at hc
          rcases List.mem_cons.mp hc with rfl | hc'
          · exact ⟨(bid, e0), List.mem_cons_self _ _, rfl, he0⟩
          · obtain ⟨q, hq, hqc⟩ := ih c hc'
            exact ⟨q, List.mem_cons_of_mem _ hq, hqc⟩
      · rw [if_neg hk0] at hc
        by_cases hk1 : ok bid 1 = true
        · rw [if_pos hk1] at hc
          by_cases h2 : mb ≠ 0 ∧ bid = mb
          · rw [if_pos h2] at hc
            rcases List.mem_cons.mp hc with rfl | hc'
            · exact ⟨(bid, e0), List.mem_cons_self _ _, rfl, he0⟩
            · simp only [List.mem_singleton] at hc'
              exact ⟨(bid, e0), List.mem_cons_self _ _, by rw [hc'], he0⟩
          · rw [if_neg h2] at hc
            rcases List.mem_cons.mp hc with rfl | hc'
            · exact ⟨(bid, e0), List.mem_cons_self _ _, rfl, he0⟩
            · rcases List.mem_cons.mp hc' with rfl | hc''
              · exact ⟨(bid, e0), List.mem_cons_self _ _, rfl, he0⟩
              · obtain ⟨q, hq, hqc⟩ := ih c hc''
                exact ⟨q, List.mem_cons_of_mem _ hq, hqc⟩
        · rw [if_neg hk1] at hc
          rcases List.mem_cons.mp hc with rfl | hc'
          · exact ⟨(bid, e0), List.mem_cons_self _ _, rfl, he0⟩
          · simp only [List.mem_singleton] at hc'
            exact ⟨(bid, e0), List.mem_cons_self _ _, by rw [hc'], he0⟩

/-- The driver loop never clears a `processed` flag. -/
theorem drive_plan_mono (ok : Nat → Nat → Bool) (mb : Nat) (plan : BatchPlan) :
    ∀ (k : Nat) (e e' : Nat × BatchEntry), plan[k]? = some e →
      (drive ok mb plan).plan[k]? = some e' →
      e.2.processed = true → e'.2.processed = true := by
  induction plan with
  | nil =>
    intro k e e' he _ _
    simp at he
  | cons p rest ih =>
    obtain ⟨bid, e0⟩ := p
    intro k e e' he he' hp
    have hstep : ∃ y tail, (drive ok mb ((bid, e0) :: rest)).plan = (bid, y) :: tail
        ∧ (y = e0 ∨ y = mark_entry e0)
        ∧ (tail = rest ∨ tail = (drive ok mb rest).plan) := by
      rw [drive_cons]
      by_cases h1 : e0.processed
      · rw [if_pos h1]
        by_cases h2 : mb ≠ 0 ∧ bid = mb
        · rw [if_pos h2]
          exact ⟨e0, rest, rfl, Or.inl rfl, Or.inl rfl⟩
        · rw [if_neg h2]
          exact ⟨e0, _, rfl, Or.inl rfl, Or.inr rfl⟩
      · rw [if_neg h1]
        by_cases hk0 : ok bid 0 = true
        · rw [if_pos hk0]
          by_cases h2 : mb ≠ 0 ∧ bid = mb
          · rw [if_pos h2]
            exact ⟨mark_entry e0, rest, rfl, Or.inr rfl, Or.inl rfl⟩
          · rw [if_neg h2]
            exact ⟨mark_entry e0, _, rfl, Or.inr rfl, Or.inr rfl⟩
        · rw [if_neg hk0]
          by_cases hk1 : ok bid 1 = true
          · rw [if_pos hk1]
            by_cases h2 : mb ≠ 0 ∧ bid = mb
            · rw [if_pos h2]
              exact ⟨mark_entry e0, rest, rfl, Or.inr rfl, Or.inl rfl⟩
            · rw [if_neg h2]
              exact ⟨mark_entry e0, _, rfl, Or.inr rfl, Or.inr rfl⟩
          · rw [if_neg hk1]
            exact ⟨e0, rest, rfl, Or.inl rfl, Or.inl rfl⟩
    obtain ⟨y, tail, hplan, hy, htail⟩ := hstep
    rw [hplan] at he'
    cases k with
    | zero =>
      simp only [List.getElem?_cons_zero, Option.some.injEq] at he he'
      subst he
      subst he'
      rcases hy with rfl | rfl
      · exact hp
      · rfl
    | succ k =>
      simp only [List.getElem?_cons_succ] at he he'
      rcases htail with rfl | htl
      · rw [he] at he'
        cases he'
        exact hp
      · rw [htl] at he'
        exact ih k e e' he he' hp

/-- When every first attempt succeeds, a driver invocation (with no batch
ceiling, as in the source where `MAX_BATCHES = 0`) classifies, persists and
marks exactly the pending batches, in order. -/
theorem drive_happy (ok : Nat → Nat → Bool) (plan : BatchPlan)
    (hok : ∀ bid, ok bid 0 = true) :
    (drive ok 0 plan).calls = (plan.filter (fun e => !e.2.processed)).map (fun e => (e.1, 0))
    ∧ (drive ok 0 plan).artifacts = (plan.filter (fun e => !e.2.processed)).map Prod.fst
    ∧ (drive ok 0 plan).fatalBatch = none
    ∧ (drive ok 0 plan).plan = plan.map (fun p => (p.1, mark_entry p.2)) := by
  induction plan with
  | nil =>
    refine ⟨rfl, rfl, rfl, rfl⟩
  | cons p rest ih =>
    obtain ⟨bid, e0⟩ := p
    rw [drive_cons]
    have hmb : ¬((0 : Nat) ≠ 0 ∧ bid = 0) := by simp
    by_cases h1 : e0.processed
    · rw [if_pos h1, if_neg hmb]
      have hmark : mark_entry e0 = e0 := by
        cases e0 with
        | mk s t pr =>
          simp only [BatchEntry.processed] at h1
          simp [mark_entry, h1]
      refine ⟨?_, ?_, ?_, ?_⟩
      · simpa [List.filter_cons, h1] using ih.1
      · simpa [List.filter_cons, h1] using ih.2.1
      · simpa using ih.2.2.1
      · simp only [List.map_cons, hmark]
        exact congrArg _ ih.2.2.2
    · rw [if_neg h1, if_pos (hok bid), if_neg hmb]
      have h1f : e0.processed = false := by
        revert h1
        cases e0.processed <;> simp
      refine ⟨?_, ?_, ?_, ?_⟩
      · simp only [List.filter_cons, h1f, Bool.not_false, if_pos, List.map_cons]
        exact congrArg _ ih.1
      · simp only [List.filter_cons, h1f, Bool.not_false, if_pos, List.map_cons]
        exact congrArg _ ih.2.1
      · simpa using ih.2.2.1
      · simp only [List.map_cons]
        exact congrArg _ ih.2.2.2

/-- C1: a driver invocation issues no classification attempt for a batch whose
`processed` flag is true (unconditionally), and, when every first attempt
succeeds, it classifies, persists and completes exactly the batches whose
`processed` flag is false, in plan order. -/
theorem claim_C1_resume (ok : Nat → Nat → Bool) (plan : BatchPlan)
    (hnd : (plan.map Prod.fst).Nodup) :
    (∀ p ∈ plan, p.2.processed = true → ∀ a : Nat, ¬ ((p.1, a) ∈ (drive ok 0 plan).calls))
    ∧ ((∀ bid, ok bid 0 = true) →
      (drive ok 0 plan).calls =
        (plan.filter (fun e => !e.2.processed)).map (fun e => (e.1, 0))
      ∧ (drive ok 0 plan).artifacts =
        (plan.filter (fun e => !e.2.processed)).map Prod.fst
      ∧ (drive ok 0 plan).fatalBatch = none
      ∧ (drive ok 0 plan).plan = plan.map (fun p => (p.1, mark_entry p.2))) := by
  constructor
  · intro p hp hproc a hmem
    obtain ⟨q, hq, hq1, hq2⟩ := drive_calls_sub ok 0 plan (p.1, a) hmem
    have hpq : q = p := by
      have := List.inj_on_of_nodup_map hnd hq hp hq1
      exact this
    rw [hpq] at hq2
    rw [hproc] at hq2
    cases hq2
  · intro hok
    exact drive_happy ok plan hok

/-- C1 witness: with batches 0 and 1 of the 3-batch plan already processed,
the driver classifies only batch 2 (its very first attempt). -/
theorem claim_C1_witness :
    (drive (fun _ _ => true) 0
        [(0, ⟨0, 9, true⟩), (1, ⟨10, 19, true⟩), (2, ⟨20, 24, false⟩)]).calls = [(2, 0)] := by
  have h := ((claim_C1_resume (fun _ _ => true)
    [(0, ⟨0, 9, true⟩), (1, ⟨10, 19, true⟩), (2, ⟨20, 24, false⟩)]
    (by decide)).2 (fun _ => rfl)).1
  simpa using h

/-- C2: a pending batch whose first attempt fails with a transient error gets
one cooldown and exactly one whole-batch retry; when the retry fails too, the
run aborts with that batch still unprocessed, no artifact written for it, and
all later batches untouched.  `pre` is the part of the plan the run has
already traversed (each of its pending batches succeeded within two
attempts). -/
theorem claim_C2_retry_fatal (ok : Nat → Nat → Bool) (pre : BatchPlan)
    (bid : Nat) (e : BatchEntry) (rest : BatchPlan)
    (hpre : ∀ p ∈ pre, p.2.processed = false → ok p.1 0 = true ∨ ok p.1 1 = true)
    (he : e.processed = false) (h0 : ok bid 0 = false) (h1 : ok bid 1 = false) :
    (drive ok 0 (pre ++ (bid, e) :: rest)).fatalBatch = some bid
    ∧ (drive ok 0 (pre ++ (bid, e) :: rest)).plan =
        pre.map (fun p => (p.1, mark_entry p.2)) ++ (bid, e) :: rest
    ∧ (drive ok 0 (pre ++ (bid, e) :: rest)).calls =
        (pre.filter (fun p => !p.2.processed)).flatMap (fun p => calls_for ok p.1)
          ++ [(bid, 0), (bid, 1)]
    ∧ (drive ok 0 (pre ++ (bid, e) :: rest)).artifacts =
        (pre.filter (fun p => !p.2.processed)).map Prod.fst
    ∧ (drive ok 0 (pre ++ (bid, e) :: rest)).cooldowns =
        (pre.filter (fun p => !p.2.processed && !(ok p.1 0))).map Prod.fst ++ [bid] := by
  induction pre with
  | nil =>
    simp only [List.nil_append]
    rw [drive_cons, if_neg (by simp [he]), if_neg (by simp [h0]), if_neg (by simp [h1])]
    refine ⟨rfl, rfl, by simp, rfl, by simp⟩
  | cons p pre ih =>
    obtain ⟨pid, pe⟩ := p
    have htail := ih (fun q hq hqf => hpre q (List.mem_cons_of_mem _ hq) hqf)
    simp only [List.cons_append]
    rw [drive_cons]
    have hmb : ¬((0 : Nat) ≠ 0 ∧ pid = 0) := by simp
    by_cases hproc : pe.processed
    · rw [if_pos hproc, if_neg hmb]
      have hmark : mark_entry pe = pe := by
        cases pe with
        | mk s t pr =>
          simp only [BatchEntry.processed] at hproc
          simp [mark_entry, hproc]
      refine ⟨htail.1, ?_, ?_, ?_, ?_⟩
      · simp only [List.map_cons, hmark, List.cons_append]
        exact congrArg _ htail.2.1
      · simpa [List.filter_cons, hproc] using htail.2.2.1
      · simpa [List.filter_cons, hproc] using htail.2.2.2.1
      · simpa [List.filter_cons, hproc] using htail.2.2.2.2
    · have hprocf : pe.processed = false := by
        revert hproc
        cases pe.processed <;> simp
      rw [if_neg hproc]
      rcases hpre (pid, pe) (List.mem_cons_self _ _) hprocf with hok0 | hok1
      · rw [if_pos hok0, if_neg hmb]
        refine ⟨htail.1, ?_, ?_, ?_, ?_⟩
        · simp only [List.map_cons, List.cons_append]
          exact congrArg _ htail.2.1
        · simp only [List.filter_cons, hprocf, Bool.not_false, if_pos,
            List.flatMap_cons, calls_for, hok0, if_true, List.cons_append]
          simpa using congrArg (fun l => (pid, 0) :: l) htail.2.2.1
        · simp only [List.filter_cons, hprocf, Bool.not_false, if_pos, List.map_cons]
          exact congrArg _ htail.2.2.2.1
        · simp only [List.filter_cons, hprocf, hok0, Bool.not_true, Bool.and_false]
          simpa using htail.2.2.2.2
      · by_cases hok0 : ok pid 0 = true
        · rw [if_pos hok0, if_neg hmb]
          refine ⟨htail.1, ?_, ?_, ?_, ?_⟩
          · simp only [List.map_cons, List.cons_append]
            exact congrArg _ htail.2.1
          · simp only [List.filter_cons, hprocf, Bool.not_false, if_pos,
              List.flatMap_cons, calls_for, hok0, if_true, List.cons_append]
            simpa using congrArg (fun l => (pid, 0) :: l) htail.2.2.1
          · simp only [List.filter_cons, hprocf, Bool.not_false, if_pos, List.map_cons]
            exact congrArg _ htail.2.2.2.1
          · simp only [List.filter_cons, hprocf, hok0, Bool.not_true, Bool.and_false]
            simpa using htail.2.2.2.2
        · have hok0f : ok pid 0 = false := by
            revert hok0
            cases ok pid 0 <;> simp
          rw [if_neg hok0, if_pos hok1, if_neg hmb]
          refine ⟨htail.1, ?_, ?_, ?_, ?_⟩
          · simp only [List.map_cons, List.cons_append]
            exact congrArg _ htail.2.1
          · simp only [List.filter_cons, hprocf, Bool.not_false, if_pos,
              List.flatMap_cons, calls_for, hok0f, List.cons_append]
            simp only [Bool.false_eq_true, if_false]
            have := htail.2.2.1
            rw [this]
            rfl
          · simp only [List.filter_cons, hprocf, Bool.not_false, if_pos, List.map_cons]
            exact congrArg _ htail.2.2.2.1
          · simp only [List.filter_cons, hprocf, hok0f, Bool.not_false, Bool.and_true,
              List.map_cons]
            have := htail.2.2.2.2
            rw [this]
            rfl

/-- C2 witness: a single pending batch failing both attempts — the run aborts
with `processed` still false, no artifact, one cooldown, two attempts. -/
theorem claim_C2_witness :
    (drive (fun _ _ => false) 0 [(0, ⟨0, 9, false⟩)]).fatalBatch = some 0
    ∧ (drive (fun _ _ => false) 0 [(0, ⟨0, 9, false⟩)]).plan = [(0, ⟨0, 9, false⟩)]
    ∧ (drive (fun _ _ => false) 0 [(0, ⟨0, 9, false⟩)]).artifacts = [] := by
  have h := claim_C2_retry_fatal (fun _ _ => false) [] 0 ⟨0, 9, false⟩ []
    (by intro p hp; simp at hp) rfl rfl rfl
  exact ⟨h.1, by simpa using h.2.1, by simpa using h.2.2.2.1⟩

/-- C10: the `processed` flag is monotone — neither the checkpoint scanner
(`match_batch_results`) nor the driver batch loop ever changes a batch's
`processed` flag from true back to false, so the set of processed batch ids
only grows during a run. -/
theorem claim_C10_processed_monotone :
    (∀ (file_uuid : String) (dir_files : List String) (batches batches' : BatchPlan),
      match_batch_results file_uuid dir_files batches = some batches' →
      ∀ (k : Nat) (e e' : Nat × BatchEntry), batches[k]? = some e → batches'[k]? = some e' →
        e.2.processed = true → e'.2.processed = true)
    ∧ (∀ (ok : Nat → Nat → Bool) (max_batches : Nat) (plan : BatchPlan),
      ∀ (k : Nat) (e e' : Nat × BatchEntry), plan[k]? = some e →
        (drive ok max_batches plan).plan[k]? = some e' →
        e.2.processed = true → e'.2.processed = true) := by
  constructor
  · intro file_uuid dir_files batches batches' h k e e' he he' hp
    unfold match_batch_results at h
    by_cases hemp : (artifact_files file_uuid dir_files).isEmpty
    · rw [if_pos hemp, Option.some.injEq] at h
      subst h
      rw [he] at he'
      cases he'
      exact hp
    · rw [if_neg hemp] at h
      exact scan_foldlM_mono _ batches batches' h k e e' he he' hp
  · intro ok max_batches plan k e e' he he' hp
    exact drive_plan_mono ok max_batches plan k e e' he he' hp

/-- C10 witness: a scan that marks batch `1` of a two-batch plan keeps batch
`0` processed. -/
theorem claim_C10_witness :
    (match_batch_results "ab" ["./results/ab_1.json"]
        [(0, ⟨0, 9, true⟩), (1, ⟨10, 19, false⟩)] =
      some [(0, ⟨0, 9, true⟩), (1, ⟨10, 19, true⟩)])
    ∧ ((0, (⟨0, 9, true⟩ : BatchEntry)) : Nat × BatchEntry).2.processed = true :=
  ⟨by decide,
   claim_C10_processed_monotone.1 "ab" ["./results/ab_1.json"]
    [(0, ⟨0, 9, true⟩), (1, ⟨10, 19, false⟩)]
    [(0, ⟨0, 9, true⟩), (1, ⟨10, 19, true⟩)] (by decide) 0 (0, ⟨0, 9, true⟩)
    (0, ⟨0, 9, true⟩) (by decide) (by decide) (by decide)⟩

/-- C7: for every probability mapping over the five classes, the score is the
weighted sum `sum(probability_i / 100 * weight_i)` with weights
`MINOR = 1 .. CATASTROPHIC = 5`; a pure `MINOR` (resp. `CATASTROPHIC`)
distribution scores `1.0` (resp. `5.0`); the normalized variant divides the
score by `5`. -/
theorem claim_C7_score_values :
    (∀ p : FfsiProbs, ffsi_score p false =
      p.minor / 100 * 1 + p.moderate / 100 * 2 + p.serious / 100 * 3 +
      p.severe / 100 * 4 + p.catastrophic / 100 * 5)
    ∧ ffsi_score ⟨100, 0, 0, 0, 0⟩ false = 1
    ∧ ffsi_score ⟨0, 0, 0, 0, 100⟩ false = 5
    ∧ (∀ p : FfsiProbs, ffsi_score p true = ffsi_score p false / 5)
    ∧ ffsi_score ⟨100, 0, 0, 0, 0⟩ true = 1 / 5
    ∧ ffsi_score ⟨0, 0, 0, 0, 100⟩ true = 1 := by
  refine ⟨fun p => rfl, by norm_num [ffsi_score], by norm_num [ffsi_score],
    fun p => rfl, by norm_num [ffsi_score], by norm_num [ffsi_score]⟩

/-- C6 counterexample: the response `"foo\n\nbar"` holds no `\x7b...\x7d`
object, yet the item is not recovered with an all-zero record — the extracted
classes text (`"foo\n\nbar"`) differs from the extracted extra text
(`"bar"`), so no substitution happens and the JSON parse of
`"\x7bfoo\n\nbar\x7d"` raises an error that propagates (`none`). -/
theorem claim_C6_counterexample :
    classify_item "foo\n\nbar" "x" = none
    ∧ response_classes "foo\n\nbar" ≠ response_extra "foo\n\nbar" := by
  exact ⟨by decide, by decide⟩

set_option maxRecDepth 4000 in
/-- C6 amended: the all-zero substitution fires exactly when the extracted
classes text equals the extracted extra text — which covers every brace-free
response without a blank-line (`"\n\n"`) separator, but not all brace-free
responses.  In that case the item yields the fixed all-zero probability
record with score `0.0` and no failure; a brace-free response whose
blank-line-split differs from the whole text instead fails the JSON parse and
the failure propagates (see the counterexample). -/
theorem claim_C6_amended (oracle remark : String)
    (h1 : remark ≠ "") (h2 : remark ≠ " ")
    (h3 : response_classes oracle = response_extra oracle) :
    classify_item oracle remark =
      some ⟨remark, ⟨0, 0, 0, 0, 0⟩, 0, response_extra oracle⟩ := by
  have hq : query_gpt oracle remark = oracle := by
    unfold query_gpt
    rw [if_neg]
    push_neg
    exact ⟨h1, h2⟩
  simp only [classify_item, hq, if_pos h3]
  rw [show json_loads ("\x7b" ++ zero_classes_text ++ "\x7d") =
    some [("MINOR", 0), ("MODERATE", 0), ("SERIOUS", 0), ("SEVERE", 0),
          ("CATASTROPHIC", 0)] from by decide]
  simp only [Option.some_bind]
  rw [show dict_to_probs [("MINOR", 0), ("MODERATE", 0), ("SERIOUS", 0), ("SEVERE", 0),
    ("CATASTROPHIC", 0)] = some ⟨0, 0, 0, 0, 0⟩ from by decide]
  simp only [Option.map_some']
  have hscore : ffsi_score ⟨0, 0, 0, 0, 0⟩ false = 0 := by
    norm_num [ffsi_score]
  rw [hscore]

/-- C6 witness: the brace-free, blank-line-free response `"hello"` is
recovered as the all-zero record with score `0.0`. -/
theorem claim_C6_witness :
    classify_item "hello" "x" = some ⟨"x", ⟨0, 0, 0, 0, 0⟩, 0, "hello"⟩ := by
  have h := claim_C6_amended "hello" "x" (by decide) (by decide) (by decide)
  rw [show response_extra "hello" = "hello" from by decide] at h
  exact h

/-- One step of the `classify_lsr_remarks` loop with no item cap. -/
theorem classify_go_succ (total index rem : Nat) :
    classify_go total 0 index (rem + 1) =
      ApiEvent.call index ::
        ((if index < total - 1 then [ApiEvent.pause] else []) ++
         classify_go total 0 (index + 1) rem) := by
  simp [classify_go]

/-- Each `classify_lsr_remarks` invocation issues exactly one call per item. -/
theorem classify_go_count_calls (total : Nat) :
    ∀ rem index, (classify_go total 0 index rem).countP (fun e =>
      match e with
      | ApiEvent.call _ => true
      | ApiEvent.pause => false) = rem := by
  intro rem
  induction rem with
  | zero =>
    intro index
    rfl
  | succ r ih =>
    intro index
    rw [classify_go_succ, List.countP_cons]
    by_cases h : index < total - 1
    · simp only [if_pos h, List.countP_append, ih]
      simp [List.countP_cons]
    · simp only [if_neg h, List.nil_append, ih]
      simp [List.countP_cons]

/-- Each `classify_lsr_remarks` invocation pauses exactly once per item except
after the last item of the batch. -/
theorem classify_go_count_pauses (total : Nat) :
    ∀ rem index, index + rem = total →
      (classify_go total 0 index rem).countP (fun e =>
        match e with
        | ApiEvent.call _ => false
        | ApiEvent.pause => true) = rem - 1 := by
  intro rem
  induction rem with
  | zero =>
    intro index _
    rfl
  | succ r ih =>
    intro index h
    rw [classify_go_succ, List.countP_cons]
    cases r with
    | zero =>
      have hlt : ¬ index < total - 1 := by omega
      simp [if_neg hlt, classify_go]
    | succ r2 =>
      have hlt : index < total - 1 := by omega
      rw [if_pos hlt]
      simp only [List.countP_append, ih (index + 1) (by omega), List.countP_cons]
      simp [List.countP_cons]
      omega

/-- Within one batch, every call except the batch's last is immediately
followed by a pause. -/
theorem check_batch_events (bid : Nat) (total : Nat) :
    ∀ rem index, index + rem = total →
      pause_after_calls_check ((classify_go total 0 index rem).map (fun e =>
        match e with
        | ApiEvent.call i => RunEvent.call bid i
        | ApiEvent.pause => RunEvent.pause)) = true := by
  intro rem
  induction rem with
  | zero =>
    intro index _
    rfl
  | succ r ih =>
    intro index h
    rw [classify_go_succ]
    cases r with
    | zero =>
      have hlt : ¬ index < total - 1 := by omega
      simp [if_neg hlt, classify_go, pause_after_calls_check, is_call]
    | succ r2 =>
      have hlt : index < total - 1 := by omega
      rw [if_pos hlt]
      have hshape : classify_go total 0 (index + 1) (r2 + 1) =
          ApiEvent.call (index + 1) ::
            ((if index + 1 < total - 1 then [ApiEvent.pause] else []) ++
             classify_go total 0 (index + 2) r2) := classify_go_succ total (index + 1) r2
      have hrest := ih (index + 1) (by omega)
      simp only [List.map_cons, List.singleton_append, List.cons_append]
      rw [pause_after_calls_check]
      rw [hshape]
      simp only [List.map_cons, List.any_cons, is_call, Bool.true_or, Bool.or_true, if_pos]
      rw [pause_after_calls_check]
      rw [← hshape] at *
      exact hrest

/-- C8 counterexample: in a run over two pending two-item batches the driver
pauses inside each batch but not between the last call of batch 0 and the
first call of batch 1 — the claimed pause discipline fails on the run's
trace. -/
theorem claim_C8_counterexample :
    run_trace [(0, 2), (1, 2)] =
      [RunEvent.call 0 0, RunEvent.pause, RunEvent.call 0 1,
       RunEvent.call 1 0, RunEvent.pause, RunEvent.call 1 1]
    ∧ pause_after_calls_check (run_trace [(0, 2), (1, 2)]) = false := by
  exact ⟨by decide, by decide⟩

/-- C8 amended: the driver pauses after every classified item except the last
item of each batch (not only the last item of the final batch): every batch
of the run has exactly one call per item, each batch-internal call is
immediately followed by a pause, and the run holds exactly one pause per item
minus one pause per batch — so consecutive calls in different batches are not
separated by a pause. -/
theorem claim_C8_amended (bs : List (Nat × Nat)) (hpos : ∀ b ∈ bs, 0 < b.2) :
    (run_trace bs).countP is_call = (bs.map Prod.snd).sum
    ∧ (run_trace bs).countP (fun e => !(is_call e)) + bs.length = (bs.map Prod.snd).sum
    ∧ (∀ b ∈ bs, pause_after_calls_check (batch_events b.1 b.2) = true) := by
  have hbatch_call : ∀ bid s : Nat, (batch_events bid s).countP is_call = s := by
    intro bid s
    unfold batch_events classify_trace
    rw [List.countP_map]
    have : (is_call ∘ (fun e =>
        match e with
        | ApiEvent.call i => RunEvent.call bid i
        | ApiEvent.pause => RunEvent.pause)) = (fun e =>
        match e with
        | ApiEvent.call _ => true
        | ApiEvent.pause => false) := by
      funext e
      cases e <;> rfl
    rw [this, classify_go_count_calls]
  have hbatch_pause : ∀ bid s : Nat, (batch_events bid s).countP (fun e => !(is_call e)) = s - 1 := by
    intro bid s
    unfold batch_events classify_trace
    rw [List.countP_map]
    have : ((fun e => !(is_call e)) ∘ (fun e =>
        match e with
        | ApiEvent.call i => RunEvent.call bid i
        | ApiEvent.pause => RunEvent.pause)) = (fun e =>
        match e with
        | ApiEvent.call _ => false
        | ApiEvent.pause => true) := by
      funext e
      cases e <;> rfl
    rw [this, classify_go_count_pauses s (s) 0 (by omega)]
  refine ⟨?_, ?_, ?_⟩
  · induction bs with
    | nil => rfl
    | cons b bs ih =>
      rw [run_trace, List.flatMap_cons, List.countP_append, ← run_trace]
      rw [hbatch_call, ih (fun q hq => hpos q (List.mem_cons_of_mem _ hq))]
      simp
  · induction bs with
    | nil => rfl
    | cons b bs ih =>
      rw [run_trace, List.flatMap_cons, List.countP_append, ← run_trace]
      rw [hbatch_pause]
      have hb : 0 < b.2 := hpos b (List.mem_cons_self _ _)
      have ihx := ih (fun q hq => hpos q (List.mem_cons_of_mem _ hq))
      simp only [List.length_cons, List.map_cons, List.sum_cons]
      omega
  · intro b _
    unfold batch_events classify_trace
    exact check_batch_events b.1 b.2 b.2 0 (by omega)

/-- C8 witness: the amended pause accounting at the two-batch, two-item run:
4 calls, 2 pauses, both batch traces internally paused. -/
theorem claim_C8_witness :
    (run_trace [(0, 2), (1, 2)]).countP is_call = ([(0, 2), (1, 2)].map Prod.snd).sum
    ∧ (run_trace [(0, 2), (1, 2)]).countP (fun e => !(is_call e)) + 2 =
        ([((0 : Nat), (2 : Nat)), (1, 2)].map Prod.snd).sum := by
  have h := claim_C8_amended [(0, 2), (1, 2)] (by decide)
  exact ⟨h.1, h.2.1⟩

/-- Writing one artifact leaves the table length unchanged. -/
theorem place_go_length (s : Nat) :
    ∀ (recs : List ClassRec) (i : Nat) (t : List (Option OutRow)),
      (place_go s i recs t).length = t.length := by
  intro recs
  induction recs with
  | nil =>
    intro i t
    rfl
  | cons r rs ih =>
    intro i t
    rw [place_go, ih]
    exact List.length_set ..

/-- Positions below the written window are untouched. -/
theorem place_go_lt (s : Nat) :
    ∀ (recs : List ClassRec) (i : Nat) (t : List (Option OutRow)) (j : Nat),
      j < s + i → (place_go s i recs t)[j]? = t[j]? := by
  intro recs
  induction recs with
  | nil =>
    intro i t j _
    rfl
  | cons r rs ih =>
    intro i t j hj
    rw [place_go, ih (i + 1) _ j (by omega)]
    exact List.getElem?_set_ne (by omega)

/-- Positions above the written window are untouched. -/
theorem place_go_ge (s : Nat) :
    ∀ (recs : List ClassRec) (i : Nat) (t : List (Option OutRow)) (j : Nat),
      s + i + recs.length ≤ j → (place_go s i recs t)[j]? = t[j]? := by
  intro recs
  induction recs with
  | nil =>
    intro i t j _
    rfl
  | cons r rs ih =>
    intro i t j hj
    rw [place_go]
    rw [ih (i + 1) _ j (by simp at hj ⊢; omega)]
    exact List.getElem?_set_ne (by simp at hj; omega)

/-- Positions inside the written window receive the record mapped there. -/
theorem place_go_write (s : Nat) (f : Nat → ClassRec) :
    ∀ (recs : List ClassRec) (i : Nat) (t : List (Option OutRow)) (j : Nat),
      (∀ k, k < recs.length → recs[k]? = some (f (s + i + k))) →
      s + i ≤ j → j < s + i + recs.length → j < t.length →
      (place_go s i recs t)[j]? = some (some (consolidate_row (f j))) := by
  intro recs
  induction recs with
  | nil =>
    intro i t j _ h1 h2 _
    simp at h2
    omega
  | cons r rs ih =>
    intro i t j hrec h1 h2 h3
    rw [place_go]
    have hr : r = f (s + i) := by
      have := hrec 0 (by simp)
      simpa using this
    by_cases hji : j = s + i
    · rw [place_go_lt s rs (i + 1) _ j (by omega)]
      subst hji
      rw [hr] at *
      rw [List.getElem?_set_self (by omega)]
    · refine ih (i + 1) _ j ?_ (by omega) (by simp at h2 ⊢; omega)
        (by rw [List.length_set]; exact h3)
      intro k hk
      have := hrec (k + 1) (by simp; omega)
      simpa [Nat.add_assoc, Nat.add_comm, Nat.add_left_comm] using this

/-- The consolidation fold leaves the table length unchanged. -/
theorem consolidate_fold_length (batch_size : Nat) :
    ∀ (arts : List (Nat × List ClassRec)) (t : List (Option OutRow)),
      (arts.foldl (fun t a => place_batch t (a.1 * batch_size) a.2) t).length = t.length := by
  intro arts
  induction arts with
  | nil =>
    intro t
    rfl
  | cons a rest ih =>
    intro t
    rw [List.foldl_cons, ih]
    exact place_go_length ..

/-- A table position already holding the record of its row keeps it through
the rest of the consolidation fold, provided every artifact writes the
records of the rows it covers. -/
theorem consolidate_fold_keep (batch_size n : Nat) (f : Nat → ClassRec) :
    ∀ (arts : List (Nat × List ClassRec)) (t : List (Option OutRow)) (j : Nat),
      (∀ a ∈ arts, ∃ m : Nat, a.1 * batch_size + m ≤ n ∧
        a.2 = (List.range m).map (fun i => f (a.1 * batch_size + i))) →
      t.length = n → j < n →
      t[j]? = some (some (consolidate_row (f j))) →
      (arts.foldl (fun t a => place_batch t (a.1 * batch_size) a.2) t)[j]? =
        some (some (consolidate_row (f j))) := by
  intro arts
  induction arts with
  | nil =>
    intro t j _ _ _ ht
    exact ht
  | cons a rest ih =>
    intro t j hart hlen hj ht
    rw [List.foldl_cons]
    obtain ⟨m, hm, hrecs⟩ := hart a (List.mem_cons_self _ _)
    have hlen2 : (place_batch t (a.1 * batch_size) a.2).length = n := by
      unfold place_batch
      rw [place_go_length, hlen]
    refine ih _ j (fun q hq => hart q (List.mem_cons_of_mem _ hq)) hlen2 hj ?_
    unfold place_batch
    by_cases hcov : a.1 * batch_size ≤ j ∧ j < a.1 * batch_size + a.2.length
    · rw [place_go_write (a.1 * batch_size) f a.2 0 t j ?_ (by omega) (by omega)
        (by omega)]
      intro k hk
      rw [hrecs] at hk ⊢
      simp only [List.length_map, List.length_range] at hk
      simp [List.getElem?_map, List.getElem?_range, hk]
    · rcases (by omega : j < a.1 * batch_size + 0 ∨ a.1 * batch_size + 0 + a.2.length ≤ j)
        with hlt | hge
      · rw [place_go_lt _ _ _ _ _ hlt]
        exact ht
      · rw [place_go_ge _ _ _ _ _ hge]
        exact ht

/-- Once some artifact of the list covers row `j`, the consolidation fold
ends with row `j` holding its record. -/
theorem consolidate_fold_covered (batch_size n : Nat) (f : Nat → ClassRec) :
    ∀ (arts : List (Nat × List ClassRec)) (t : List (Option OutRow)) (j : Nat),
      (∀ a ∈ arts, ∃ m : Nat, a.1 * batch_size + m ≤ n ∧
        a.2 = (List.range m).map (fun i => f (a.1 * batch_size + i))) →
      t.length = n → j < n →
      (∃ a ∈ arts, a.1 * batch_size ≤ j ∧ j < a.1 * batch_size + a.2.length) →
      (arts.foldl (fun t a => place_batch t (a.1 * batch_size) a.2) t)[j]? =
        some (some (consolidate_row (f j))) := by
  intro arts
  induction arts with
  | nil =>
    intro t j _ _ _ hcov
    obtain ⟨a, ha, _⟩ := hcov
    simp at ha
  | cons a rest ih =>
    intro t j hart hlen hj hcov
    rw [List.foldl_cons]
    have hlen2 : (place_batch t (a.1 * batch_size) a.2).length = n := by
      unfold place_batch
      rw [place_go_length, hlen]
    obtain ⟨m, hm, hrecs⟩ := hart a (List.mem_cons_self _ _)
    by_cases hcova : a.1 * batch_size ≤ j ∧ j < a.1 * batch_size + a.2.length
    · -- the head artifact already writes row j; the rest of the fold keeps it
      refine consolidate_fold_keep batch_size n f rest _ j
        (fun q hq => hart q (List.mem_cons_of_mem _ hq)) hlen2 hj ?_
      unfold place_batch
      rw [place_go_write (a.1 * batch_size) f a.2 0 t j ?_ (by omega) (by omega)
        (by omega)]
      intro k hk
      rw [hrecs] at hk ⊢
      simp only [List.length_map, List.length_range] at hk
      simp [List.getElem?_map, List.getElem?_range, hk]
    · obtain ⟨q, hq, hqcov⟩ := hcov
      rcases List.mem_cons.mp hq with rfl | hq'
      · exact absurd hqcov hcova
      · exact ih _ j (fun w hw => hart w (List.mem_cons_of_mem _ hw)) hlen2 hj
          ⟨q, hq', hqcov⟩

/-- C5: consolidating the complete artifact set of a run places each record at
global row `batch_id * batch_size + local_index`, rebuilding every row of the
original order with its classification fields and no placeholder rows,
independently of artifact discovery order (any artifact list satisfying the
same hypotheses — e.g. any permutation — yields the same table). -/
theorem claim_C5_consolidation (batch_size n : Nat) (f : Nat → ClassRec)
    (arts : List (Nat × List ClassRec))
    (hart : ∀ a ∈ arts, ∃ m : Nat, a.1 * batch_size + m ≤ n ∧
      a.2 = (List.range m).map (fun i => f (a.1 * batch_size + i)))
    (hcover : ∀ j : Nat, j < n →
      ∃ a ∈ arts, a.1 * batch_size ≤ j ∧ j < a.1 * batch_size + a.2.length) :
    consolidate batch_size n arts =
      (List.range n).map (fun j => some (consolidate_row (f j))) := by
  apply List.ext_getElem?
  intro j
  by_cases hj : j < n
  · rw [consolidate, consolidate_fold_covered batch_size n f arts _ j hart
      (by simp) hj (hcover j hj)]
    simp [List.getElem?_map, List.getElem?_range, hj]
  · have h1 : (consolidate batch_size n arts)[j]? = none := by
      apply List.getElem?_eq_none
      rw [consolidate, consolidate_fold_length]
      simp
      omega
    have h2 : ((List.range n).map (fun j => some (consolidate_row (f j))))[j]? = none := by
      apply List.getElem?_eq_none
      simp
      omega
    rw [h1, h2]

/-- C5 witness: the spec's 25-item, batch-size-10 round trip — three artifacts
of sizes 10, 10 and 5, discovered out of order, rebuild all 25 rows. -/
theorem claim_C5_witness :
    consolidate 10 25
      [(2, (List.range 5).map (fun _ => ⟨"r", ⟨0, 0, 0, 0, 0⟩, 0, ""⟩)),
       (0, (List.range 10).map (fun _ => ⟨"r", ⟨0, 0, 0, 0, 0⟩, 0, ""⟩)),
       (1, (List.range 10).map (fun _ => ⟨"r", ⟨0, 0, 0, 0, 0⟩, 0, ""⟩))] =
      (List.range 25).map (fun _ =>
        some (consolidate_row ⟨"r", ⟨0, 0, 0, 0, 0⟩, 0, ""⟩)) := by
  refine claim_C5_consolidation 10 25 (fun _ => ⟨"r", ⟨0, 0, 0, 0, 0⟩, 0, ""⟩) _ ?_ ?_
  · intro a ha
    rcases List.mem_cons.mp ha with rfl | ha'
    · exact ⟨5, by omega, rfl⟩
    rcases List.mem_cons.mp ha' with rfl | ha''
    · exact ⟨10, by omega, rfl⟩
    rcases List.mem_cons.mp ha'' with rfl | ha3
    · exact ⟨10, by omega, rfl⟩
    · simp at ha3
  · intro j hj
    by_cases h0 : j < 10
    · exact ⟨(0, (List.range 10).map (fun _ => ⟨"r", ⟨0, 0, 0, 0, 0⟩, 0, ""⟩)),
        by simp, by simp; omega⟩
    · by_cases h1 : j < 20
      · exact ⟨(1, (List.range 10).map (fun _ => ⟨"r", ⟨0, 0, 0, 0, 0⟩, 0, ""⟩)),
          by simp, by simp; omega⟩
      · exact ⟨(2, (List.range 5).map (fun _ => ⟨"r", ⟨0, 0, 0, 0, 0⟩, 0, ""⟩)),
          by simp, by simp; omega⟩
